import Mathlib

/-!
Verification of the snapshot-diffing and reflink-replay tool
(`btrfs-mirror-subvolumes`, `src/main.rs`) against its design document.

The embedding models:
* `FileInfo` (size + mtime key), relative paths as lists of abstract
  name components (`Nat` atoms), and `CopyFile` records;
* the three-index catalog `DirScan` with its fallback lookup `DirScan.get`;
* the move-detection pass `diff`, including the potential panic on an
  empty candidate bucket (modelled as `Option.none`) and the fact that
  the `io::Result` layer never carries an error;
* the reflink executor loop of `main`/`clone_paths` as a fold over an
  outcome oracle, and the `clone_file` ioctl result mapping.

Hash maps are modelled as association lists; the uniqueness of hash-map
keys is an explicit well-formedness hypothesis (`wfExactKeys`), as are
the invariants `scan_dir` establishes (non-empty, sorted buckets and
distinct relative paths).
-/

/-- A path component (abstract file or directory name atom). -/
abbrev Component := Nat

/-- A path relative to the scanned root, as its list of components.
Ordering follows Rust `PathBuf`: lexicographic on components. -/
abbrev RelPath := List Component

/-- The metadata key of a file: size and modification time
(`struct FileInfo { len: u64, mtime: SystemTime }`). -/
structure FileInfo where
  len : Nat
  mtime : Nat
deriving DecidableEq

/-- One copy instruction (`struct CopyFile { src: PathBuf, dst: PathBuf }`).
The derived Rust `Ord` compares `src` first, then `dst`. -/
structure CopyFile where
  src : RelPath
  dst : RelPath
deriving DecidableEq

/-- Lexicographic `≤` on paths, as Rust compares slices of components:
the empty path is least, otherwise compare heads and recurse on a tie. -/
def pathLeB : RelPath → RelPath → Bool
  | [], _ => true
  | _ :: _, [] => false
  | a :: as, b :: bs => decide (a < b) || (decide (a = b) && pathLeB as bs)

/-- The order on `CopyFile` derived in Rust: field `src` first, `dst`
as the tiebreaker. -/
def copyLeB (x y : CopyFile) : Bool :=
  if x.src = y.src then pathLeB x.dst y.dst else pathLeB x.src y.src

/-- `pathLeB` as a relation, for use with `List.insertionSort`. -/
def pathLE (p q : RelPath) : Prop := pathLeB p q = true

/-- `copyLeB` as a relation, for use with `List.insertionSort`. -/
def copyLE (x y : CopyFile) : Prop := copyLeB x y = true

instance : DecidableRel pathLE := fun _ _ => inferInstanceAs (Decidable (_ = true))

instance : DecidableRel copyLE := fun _ _ => inferInstanceAs (Decidable (_ = true))

theorem pathLeB_refl : ∀ p : RelPath, pathLeB p p = true := by
  intro p
  induction p with
  | nil => rfl
  | cons a as ih => simp [pathLeB, ih]

theorem pathLeB_total : ∀ p q : RelPath, pathLeB p q = true ∨ pathLeB q p = true := by
  intro p
  induction p with
  | nil => intro q; left; rfl
  | cons a as ih =>
    intro q
    cases q with
    | nil => right; rfl
    | cons b bs =>
      rcases Nat.lt_trichotomy a b with h | h | h
      · left; simp [pathLeB, h]
      · subst h
        rcases ih bs with h2 | h2
        · left; simp [pathLeB, h2]
        · right; simp [pathLeB, h2]
      · right; simp [pathLeB, h]

theorem pathLeB_trans : ∀ p q r : RelPath,
    pathLeB p q = true → pathLeB q r = true → pathLeB p r = true := by
  intro p
  induction p with
  | nil => intro q r _ _; rfl
  | cons a as ih =>
    intro q r hpq hqr
    cases q with
    | nil => simp [pathLeB] at hpq
    | cons b bs =>
      cases r with
      | nil => simp [pathLeB] at hqr
      | cons c cs =>
        simp only [pathLeB, Bool.or_eq_true, Bool.and_eq_true, decide_eq_true_eq] at hpq hqr ⊢
        rcases hpq with h1 | ⟨h1, h1r⟩
        · rcases hqr with h2 | ⟨h2, _⟩
          · exact Or.inl (Nat.lt_trans h1 h2)
          · exact Or.inl (h2 ▸ h1)
        · rcases hqr with h2 | ⟨h2, h2r⟩
          · exact Or.inl (h1 ▸ h2)
          · exact Or.inr ⟨h1.trans h2, ih bs cs h1r h2r⟩

theorem pathLeB_antisymm : ∀ p q : RelPath,
    pathLeB p q = true → pathLeB q p = true → p = q := by
  intro p
  induction p with
  | nil =>
    intro q _ hqp
    cases q with
    | nil => rfl
    | cons b bs => simp [pathLeB] at hqp
  | cons a as ih =>
    intro q hpq hqp
    cases q with
    | nil => simp [pathLeB] at hpq
    | cons b bs =>
      simp only [pathLeB, Bool.or_eq_true, Bool.and_eq_true, decide_eq_true_eq] at hpq hqp
      rcases hpq with h1 | ⟨h1, h1r⟩
      · rcases hqp with h2 | ⟨h2, _⟩
        · exact absurd (Nat.lt_trans h1 h2) (Nat.lt_irrefl a)
        · exact absurd h1 (h2 ▸ Nat.lt_irrefl a)
      · rcases hqp with h2 | ⟨_, h2r⟩
        · exact absurd h2 (h1 ▸ Nat.lt_irrefl a)
        · exact h1 ▸ congrArg (a :: ·) (ih bs h1r h2r)

instance : IsTotal RelPath pathLE := ⟨pathLeB_total⟩

instance : IsTrans RelPath pathLE := ⟨pathLeB_trans⟩

instance : IsTotal CopyFile copyLE := by
  constructor
  intro x y
  unfold copyLE copyLeB
  by_cases h : x.src = y.src
  · simp only [h, if_pos rfl, if_pos]
    exact pathLeB_total x.dst y.dst
  · rw [if_neg h, if_neg (fun e => h e.symm)]
    exact pathLeB_total x.src y.src

instance : IsTrans CopyFile copyLE := by
  constructor
  intro x y z hxy hyz
  unfold copyLE copyLeB at hxy hyz ⊢
  by_cases hxyS : x.src = y.src
  · by_cases hyzS : y.src = z.src
    · rw [if_pos hxyS] at hxy
      rw [if_pos hyzS] at hyz
      rw [if_pos (hxyS.trans hyzS)]
      exact pathLeB_trans _ _ _ hxy hyz
    · rw [if_pos hxyS] at hxy
      rw [if_neg hyzS] at hyz
      rw [if_neg (fun e => hyzS (hxyS ▸ e)), hxyS]
      exact hyz
  · by_cases hyzS : y.src = z.src
    · rw [if_neg hxyS] at hxy
      rw [if_pos hyzS] at hyz
      rw [if_neg (fun e => hxyS (e.trans hyzS.symm)), ← hyzS]
      exact hxy
    · rw [if_neg hxyS] at hxy
      rw [if_neg hyzS] at hyz
      by_cases hxzS : x.src = z.src
      · exact absurd (pathLeB_antisymm _ _ hxy (hxzS ▸ hyz)) hxyS
      · rw [if_neg hxzS]
        exact pathLeB_trans _ _ _ hxy hyz

/-- Lookup in an association list, modelling `HashMap::get`.  A hash map
has unique keys; uniqueness is assumed separately where needed. -/
def findVal {κ β : Type} [DecidableEq κ] : List (κ × β) → κ → Option β
  | [], _ => none
  | e :: rest, k => if e.1 = k then some e.2 else findVal rest k

theorem findVal_mem {κ β : Type} [DecidableEq κ] :
    ∀ (l : List (κ × β)) (k : κ) (v : β), findVal l k = some v → (k, v) ∈ l := by
  intro l
  induction l with
  | nil => intro k v h; simp [findVal] at h
  | cons e rest ih =>
    intro k v h
    by_cases he : e.1 = k
    · rw [findVal, if_pos he] at h
      obtain ⟨k0, v0⟩ := e
      cases he
      cases h
      exact List.mem_cons_self _ _
    · rw [findVal, if_neg he] at h
      exact List.mem_cons_of_mem _ (ih k v h)

theorem findVal_of_mem_nodup {κ β : Type} [DecidableEq κ] :
    ∀ (l : List (κ × β)) (k : κ) (v : β),
      (l.map Prod.fst).Nodup → (k, v) ∈ l → findVal l k = some v := by
  intro l
  induction l with
  | nil => intro k v _ h; simp at h
  | cons e rest ih =>
    intro k v hnd hmem
    rw [List.map_cons, List.nodup_cons] at hnd
    rcases List.mem_cons.mp hmem with h | h
    · cases h
      rw [findVal, if_pos rfl]
    · have hk : e.1 ≠ k := by
        intro he
        exact hnd.1 (he ▸ List.mem_map_of_mem Prod.fst h)
      rw [findVal, if_neg hk]
      exact ih k v hnd.2 h

/-- The three-index snapshot catalog (`struct DirScan`).  Each Rust
`HashMap` is modelled as an association list in its (unspecified)
iteration order. -/
structure DirScan where
  entries_size_mtime : List (FileInfo × List RelPath)
  entries_size : List (Component × List RelPath)
  entries_name : List (Component × List RelPath)
deriving DecidableEq

/-- `Path::file_name`: the last component of a relative path, if any. -/
def fileName (p : RelPath) : Option Component := p.getLast?

/-- The fallback lookup `DirScan::get`: try the exact `(size, mtime)`
index, then the size-only index, then (when the path has a basename)
the filename index.  Each lookup tests only whether a bucket exists. -/
def DirScan.get (s : DirScan) (path : RelPath) (info : FileInfo) : Option (List RelPath) :=
  match findVal s.entries_size_mtime info with
  | some paths => some paths
  | none =>
    match findVal s.entries_size info.len with
    | some paths => some paths
    | none =>
      match fileName path with
      | some fname => findVal s.entries_name fname
      | none => none

/-- Keep a bucket only when it is non-empty. -/
def keepNonempty : Option (List RelPath) → Option (List RelPath)
  | some (p :: ps) => some (p :: ps)
  | _ => none

/-- The spec's words for the lookup `find(path, key)`: "tries the exact
index for `key`; if no bucket (or an empty one) exists, tries the
size-only index for `key.size`; if still nothing, tries the filename
index keyed by `path`'s basename.  Returns the first non-empty bucket
found, or nothing."  Stated separately from `DirScan.get` so the two
can be compared. -/
def findSpec (s : DirScan) (path : RelPath) (info : FileInfo) : Option (List RelPath) :=
  match keepNonempty (findVal s.entries_size_mtime info) with
  | some b => some b
  | none =>
    match keepNonempty (findVal s.entries_size info.len) with
    | some b => some b
    | none =>
      match fileName path with
      | some fname => keepNonempty (findVal s.entries_name fname)
      | none => none

/-- The keys of the exact index are pairwise distinct, as they are in
any hash map. -/
def wfExactKeys (s : DirScan) : Prop :=
  (s.entries_size_mtime.map Prod.fst).Nodup

/-- Every bucket of every index is non-empty: `scan_dir` only ever
inserts singleton buckets and pushes onto existing ones. -/
def bucketsNonempty (s : DirScan) : Prop :=
  (∀ e ∈ s.entries_size_mtime, e.2 ≠ []) ∧
  (∀ e ∈ s.entries_size, e.2 ≠ []) ∧
  (∀ e ∈ s.entries_name, e.2 ≠ [])

/-- All relative paths stored in the exact index, bucket by bucket. -/
def exactPaths : List (FileInfo × List RelPath) → List RelPath
  | [] => []
  | e :: rest => e.2 ++ exactPaths rest

/-- Each relative path occurs at most once in the exact index, as it
does for a catalog built by `scan_dir` (the walk yields each file
once, and each file lands in exactly one bucket). -/
def exactPathsNodup (s : DirScan) : Prop :=
  (exactPaths s.entries_size_mtime).Nodup

instance (s : DirScan) : Decidable (wfExactKeys s) :=
  inferInstanceAs (Decidable ((s.entries_size_mtime.map Prod.fst).Nodup))

instance (s : DirScan) : Decidable (bucketsNonempty s) :=
  inferInstanceAs (Decidable ((∀ e ∈ s.entries_size_mtime, e.2 ≠ []) ∧
    (∀ e ∈ s.entries_size, e.2 ≠ []) ∧ (∀ e ∈ s.entries_name, e.2 ≠ [])))

instance (s : DirScan) : Decidable (exactPathsNodup s) :=
  inferInstanceAs (Decidable ((exactPaths s.entries_size_mtime).Nodup))

/-- One step of `diff`'s inner loop, for target path `path` with key
`info`.  `none` models the panic of `base_paths[0]` on an empty
candidate bucket; `some none` means the path produced no copy (either
the `MISSING` println or an unchanged file); `some (some c)` emits the
copy `c`. -/
def copyForPath (base : DirScan) (info : FileInfo) (path : RelPath) :
    Option (Option CopyFile) :=
  match base.get path info with
  | none => some none
  | some bps =>
    if path ∈ bps then some none
    else
      match bps with
      | [] => none
      | s :: _ => some (some { src := s, dst := path })

/-- `diff`'s inner loop over the paths of one drained target bucket. -/
def diffPaths (base : DirScan) (info : FileInfo) : List RelPath → Option (List CopyFile)
  | [] => some []
  | p :: ps =>
    match copyForPath base info p with
    | none => none
    | some none => diffPaths base info ps
    | some (some c) =>
      match diffPaths base info ps with
      | none => none
      | some cs => some (c :: cs)

/-- `diff`'s outer loop over the drained exact-index buckets of the
target catalog. -/
def diffBuckets (base : DirScan) : List (FileInfo × List RelPath) → Option (List CopyFile)
  | [] => some []
  | e :: rest =>
    match diffPaths base e.1 e.2, diffBuckets base rest with
    | some cs1, some cs2 => some (cs1 ++ cs2)
    | _, _ => none

/-- `fn diff(base: &DirScan, target: DirScan) -> io::Result<Vec<CopyFile>>`.
The outer `Option` models the possible panic; the `Except` layer mirrors
`io::Result`, whose `Err` constructor never appears in the body — the
single exit is `Ok(copies)` after `copies.sort()`. -/
def diff (base target : DirScan) : Option (Except Unit (List CopyFile)) :=
  match diffBuckets base target.entries_size_mtime with
  | none => none
  | some cs => some (Except.ok (List.insertionSort copyLE cs))

/-- Does the target's exact-key bucket for `info` contain `p`?  (The
unchanged-file test used by the delete pass.) -/
def inExactBucket (s : DirScan) (info : FileInfo) (p : RelPath) : Bool :=
  match findVal s.entries_size_mtime info with
  | some bps => decide (p ∈ bps)
  | none => false

/-- The `MISSING` classification of `diff`: target paths whose fallback
lookup in the base finds no bucket at all (the `None` branch of the
match, printed as `MISSING` by the code), i.e. the change-set's adds. -/
def addCandidates (base : DirScan) : List (FileInfo × List RelPath) → List RelPath
  | [] => []
  | e :: rest =>
    e.2.filter (fun p => (base.get p e.1).isNone) ++ addCandidates base rest

/-- The adds of the change-set, sorted by path for determinism. -/
def diffAdds (base target : DirScan) : List RelPath :=
  List.insertionSort pathLE (addCandidates base target.entries_size_mtime)

/-- Modelled from the spec: the delete pass of the MoveDiffer, which is
absent from `src/main.rs` (the spec unifies several variants of the
source; the variant under `src/` emits only copies).  "For every
`(key, path)` in the base catalog, check whether the target catalog's
exact-key bucket for `key` contains the identical relative `path`.  If
it does, the file is considered unchanged and is not recorded.
Otherwise the path is recorded as a delete candidate." -/
def deleteCandidates (target : DirScan) : List (FileInfo × List RelPath) → List RelPath
  | [] => []
  | e :: rest =>
    e.2.filter (fun p => !(inExactBucket target e.1 p)) ++ deleteCandidates target rest

/-- Modelled from the spec: the deletes of the change-set, sorted by
path for determinism ("both passes must sort their outputs by path
before returning"). -/
def diffDeletes (base target : DirScan) : List RelPath :=
  List.insertionSort pathLE (deleteCandidates target base.entries_size_mtime)

/-- Is a copy list sorted by destination path?  (The ordering the spec
asserts for `copies`.) -/
def sortedByDst : List CopyFile → Bool
  | [] => true
  | [_] => true
  | a :: b :: rest => pathLeB a.dst b.dst && sortedByDst (b :: rest)

/-- `fn clone_file`: the match on the raw ioctl return value.  `-1`
becomes `Err(io::Error::last_os_error())`, anything else `Ok(())`. -/
def cloneFileResult (r : Int) : Except Unit Unit :=
  if r = -1 then Except.error () else Except.ok ()

/-- Where one invocation of `clone_paths` stops: `create_dir_all`, the
source `File::open`, the destination `File::create`, or the `FICLONE`
ioctl can fail; otherwise everything succeeds. -/
inductive StepOutcome where
  | dirFail
  | openSrcFail
  | createDstFail
  | cloneFail
  | ok
deriving DecidableEq

/-- `fn clone_paths` for one copy, against an outcome oracle: whether
the destination file got created (`File::create` ran and succeeded —
nothing ever removes it afterwards), and the propagated result. -/
def clonePathsModel (o : StepOutcome) : Bool × Except Unit Unit :=
  match o with
  | StepOutcome.dirFail => (false, Except.error ())
  | StepOutcome.openSrcFail => (false, Except.error ())
  | StepOutcome.createDstFail => (false, Except.error ())
  | StepOutcome.cloneFail => (true, Except.error ())
  | StepOutcome.ok => (true, Except.ok ())

/-- The apply-mode loop of `main`: `for copy in copies { clone_paths(..)? }`.
Returns the destination files created during the run and the final
result; the `?` operator stops at the first error. -/
def applyCopies (o : CopyFile → StepOutcome) : List CopyFile → List RelPath × Except Unit Unit
  | [] => ([], Except.ok ())
  | c :: cs =>
    match clonePathsModel (o c) with
    | (created, Except.error u) => (if created then [c.dst] else [], Except.error u)
    | (_, Except.ok _) =>
      match applyCopies o cs with
      | (fs, r) => (c.dst :: fs, r)

/-! ### Structural lemmas about the diff loops -/

theorem copyForPath_skip {base : DirScan} {info : FileInfo} {p : RelPath} {bps : List RelPath}
    (hget : base.get p info = some bps) (hp : p ∈ bps) :
    copyForPath base info p = some none := by
  simp [copyForPath, hget, hp]

theorem copyForPath_emit {base : DirScan} {info : FileInfo} {p : RelPath} {c : CopyFile}
    (h : copyForPath base info p = some (some c)) :
    p = c.dst ∧ ∃ tl, base.get p info = some (c.src :: tl) ∧ p ∉ c.src :: tl := by
  unfold copyForPath at h
  split at h
  · exact absurd h (by simp)
  case h_2 bps heq =>
    split at h
    · exact absurd h (by simp)
    case isFalse hp =>
      split at h
      · exact absurd h (by simp)
      case h_2 s tl =>
        simp only [Option.some.injEq] at h
        cases h
        exact ⟨rfl, tl, heq, hp⟩

theorem diffPaths_mem {base : DirScan} {info : FileInfo} :
    ∀ {ps : List RelPath} {cs : List CopyFile} {c : CopyFile},
      diffPaths base info ps = some cs → c ∈ cs →
      c.dst ∈ ps ∧ ∃ tl, base.get c.dst info = some (c.src :: tl) ∧ c.dst ∉ c.src :: tl := by
  intro ps
  induction ps with
  | nil =>
    intro cs c h hc
    cases h
    simp at hc
  | cons p ps ih =>
    intro cs c h hc
    cases hcp : copyForPath base info p with
    | none => simp [diffPaths, hcp] at h
    | some oc =>
      cases oc with
      | none =>
        simp only [diffPaths, hcp] at h
        obtain ⟨hd, he⟩ := ih h hc
        exact ⟨List.mem_cons_of_mem _ hd, he⟩
      | some c0 =>
        simp only [diffPaths, hcp] at h
        cases hrec : diffPaths base info ps with
        | none => rw [hrec] at h; cases h
        | some cs0 =>
          rw [hrec] at h
          cases h
          rcases List.mem_cons.mp hc with hceq | hcm
          · subst hceq
            obtain ⟨hd, he⟩ := copyForPath_emit hcp
            exact ⟨hd ▸ List.mem_cons_self _ _, hd ▸ he⟩
          · obtain ⟨hd, he⟩ := ih hrec hcm
            exact ⟨List.mem_cons_of_mem _ hd, he⟩

theorem diffPaths_dst_sublist {base : DirScan} {info : FileInfo} :
    ∀ {ps : List RelPath} {cs : List CopyFile},
      diffPaths base info ps = some cs → List.Sublist (cs.map CopyFile.dst) ps := by
  intro ps
  induction ps with
  | nil =>
    intro cs h
    cases h
    exact List.Sublist.refl _
  | cons p ps ih =>
    intro cs h
    cases hcp : copyForPath base info p with
    | none => simp [diffPaths, hcp] at h
    | some oc =>
      cases oc with
      | none =>
        simp only [diffPaths, hcp] at h
        exact (ih h).cons p
      | some c0 =>
        simp only [diffPaths, hcp] at h
        cases hrec : diffPaths base info ps with
        | none => rw [hrec] at h; cases h
        | some cs0 =>
          rw [hrec] at h
          cases h
          obtain ⟨hd, _⟩ := copyForPath_emit hcp
          rw [List.map_cons, ← hd]
          exact (ih hrec).cons₂ p

theorem diffPaths_all_unchanged {base : DirScan} {info : FileInfo} :
    ∀ {ps : List RelPath},
      (∀ p ∈ ps, ∃ bps, base.get p info = some bps ∧ p ∈ bps) →
      diffPaths base info ps = some [] := by
  intro ps
  induction ps with
  | nil => intro _; rfl
  | cons p ps ih =>
    intro h
    obtain ⟨bps, hget, hp⟩ := h p (List.mem_cons_self _ _)
    simp only [diffPaths, copyForPath_skip hget hp]
    exact ih (fun q hq => h q (List.mem_cons_of_mem _ hq))

theorem get_bucket {s : DirScan} {p : RelPath} {info : FileInfo} {bps : List RelPath}
    (h : s.get p info = some bps) :
    (∃ k, (k, bps) ∈ s.entries_size_mtime) ∨ (∃ k, (k, bps) ∈ s.entries_size) ∨
      (∃ k, (k, bps) ∈ s.entries_name) := by
  unfold DirScan.get at h
  cases h1 : findVal s.entries_size_mtime info with
  | some b =>
    rw [h1] at h
    cases h
    exact Or.inl ⟨info, findVal_mem _ _ _ h1⟩
  | none =>
    rw [h1] at h
    cases h2 : findVal s.entries_size info.len with
    | some b =>
      rw [h2] at h
      cases h
      exact Or.inr (Or.inl ⟨info.len, findVal_mem _ _ _ h2⟩)
    | none =>
      rw [h2] at h
      cases h3 : fileName p with
      | some f =>
        rw [h3] at h
        exact Or.inr (Or.inr ⟨f, findVal_mem _ _ _ h⟩)
      | none => rw [h3] at h; cases h

theorem get_nonempty {s : DirScan} {p : RelPath} {info : FileInfo} {bps : List RelPath}
    (hne : bucketsNonempty s) (h : s.get p info = some bps) : bps ≠ [] := by
  rcases get_bucket h with ⟨k, hk⟩ | ⟨k, hk⟩ | ⟨k, hk⟩
  · exact hne.1 _ hk
  · exact hne.2.1 _ hk
  · exact hne.2.2 _ hk

theorem diffPaths_total {base : DirScan} (hne : bucketsNonempty base) (info : FileInfo) :
    ∀ ps : List RelPath, ∃ cs, diffPaths base info ps = some cs := by
  intro ps
  induction ps with
  | nil => exact ⟨[], rfl⟩
  | cons p ps ih =>
    obtain ⟨cs, hcs⟩ := ih
    cases hget : base.get p info with
    | none =>
      refine ⟨cs, ?_⟩
      simp [diffPaths, copyForPath, hget, hcs]
    | some bps =>
      by_cases hp : p ∈ bps
      · refine ⟨cs, ?_⟩
        simp [diffPaths, copyForPath_skip hget hp, hcs]
      · cases bps with
        | nil => exact absurd rfl (get_nonempty hne hget)
        | cons s tl =>
          refine ⟨{ src := s, dst := p } :: cs, ?_⟩
          simp [diffPaths, copyForPath, hget, hp, hcs]

theorem diffBuckets_mem {base : DirScan} :
    ∀ {l : List (FileInfo × List RelPath)} {cs : List CopyFile} {c : CopyFile},
      diffBuckets base l = some cs → c ∈ cs →
      ∃ info ps cs0, (info, ps) ∈ l ∧ diffPaths base info ps = some cs0 ∧ c ∈ cs0 := by
  intro l
  induction l with
  | nil =>
    intro cs c h hc
    cases h
    simp at hc
  | cons e rest ih =>
    intro cs c h hc
    cases h1 : diffPaths base e.1 e.2 with
    | none => simp [diffBuckets, h1] at h
    | some cs1 =>
      cases h2 : diffBuckets base rest with
      | none => simp [diffBuckets, h1, h2] at h
      | some cs2 =>
        simp only [diffBuckets, h1, h2, Option.some.injEq] at h
        cases h
        rcases List.mem_append.mp hc with hm | hm
        · exact ⟨e.1, e.2, cs1, List.mem_cons_self _ _, h1, hm⟩
        · obtain ⟨info, ps, cs0, hmem, hdp, hcm⟩ := ih h2 hm
          exact ⟨info, ps, cs0, List.mem_cons_of_mem _ hmem, hdp, hcm⟩

theorem diffBuckets_dst_sublist {base : DirScan} :
    ∀ {l : List (FileInfo × List RelPath)} {cs : List CopyFile},
      diffBuckets base l = some cs → List.Sublist (cs.map CopyFile.dst) (exactPaths l) := by
  intro l
  induction l with
  | nil =>
    intro cs h
    cases h
    exact List.Sublist.refl _
  | cons e rest ih =>
    intro cs h
    cases h1 : diffPaths base e.1 e.2 with
    | none => simp [diffBuckets, h1] at h
    | some cs1 =>
      cases h2 : diffBuckets base rest with
      | none => simp [diffBuckets, h1, h2] at h
      | some cs2 =>
        simp only [diffBuckets, h1, h2, Option.some.injEq] at h
        cases h
        rw [List.map_append, exactPaths]
        exact List.Sublist.append (diffPaths_dst_sublist h1) (ih h2)

theorem diffBuckets_total {base : DirScan} (hne : bucketsNonempty base) :
    ∀ l : List (FileInfo × List RelPath), ∃ cs, diffBuckets base l = some cs := by
  intro l
  induction l with
  | nil => exact ⟨[], rfl⟩
  | cons e rest ih =>
    obtain ⟨cs2, h2⟩ := ih
    obtain ⟨cs1, h1⟩ := diffPaths_total hne e.1 e.2
    exact ⟨cs1 ++ cs2, by simp [diffBuckets, h1, h2]⟩

theorem diffBuckets_all_unchanged {base : DirScan} :
    ∀ {l : List (FileInfo × List RelPath)},
      (∀ e ∈ l, diffPaths base e.1 e.2 = some []) → diffBuckets base l = some [] := by
  intro l
  induction l with
  | nil => intro _; rfl
  | cons e rest ih =>
    intro h
    have h1 := h e (List.mem_cons_self _ _)
    have h2 := ih (fun x hx => h x (List.mem_cons_of_mem _ hx))
    simp [diffBuckets, h1, h2]

theorem mem_exactPaths : ∀ {l : List (FileInfo × List RelPath)} {k : FileInfo}
    {b : List RelPath} {p : RelPath}, (k, b) ∈ l → p ∈ b → p ∈ exactPaths l := by
  intro l
  induction l with
  | nil => intro k b p h _; simp at h
  | cons e rest ih =>
    intro k b p h hp
    rw [exactPaths, List.mem_append]
    rcases List.mem_cons.mp h with he | he
    · left; exact (congrArg Prod.snd he) ▸ hp
    · right; exact ih he hp

theorem exactPaths_unique : ∀ {l : List (FileInfo × List RelPath)} {k1 k2 : FileInfo}
    {b1 b2 : List RelPath} {p : RelPath},
    (exactPaths l).Nodup → (k1, b1) ∈ l → p ∈ b1 → (k2, b2) ∈ l → p ∈ b2 →
    k1 = k2 ∧ b1 = b2 := by
  intro l
  induction l with
  | nil => intro k1 k2 b1 b2 p _ h1 _ _ _; simp at h1
  | cons e rest ih =>
    intro k1 k2 b1 b2 p hnd h1 hp1 h2 hp2
    rw [exactPaths] at hnd
    obtain ⟨_, ndRest, disj⟩ := List.nodup_append.mp hnd
    rcases List.mem_cons.mp h1 with he1 | he1 <;> rcases List.mem_cons.mp h2 with he2 | he2
    · exact ⟨congrArg Prod.fst (he1.trans he2.symm), congrArg Prod.snd (he1.trans he2.symm)⟩
    · exact absurd (mem_exactPaths he2 hp2) (disj ((congrArg Prod.snd he1) ▸ hp1))
    · exact absurd (mem_exactPaths he1 hp1) (fun hm => disj ((congrArg Prod.snd he2) ▸ hp2) hm)
    · exact ih ndRest he1 hp1 he2 hp2

theorem deleteCandidates_mem_of {target : DirScan} :
    ∀ {l : List (FileInfo × List RelPath)} {k : FileInfo} {b : List RelPath} {p : RelPath},
      (k, b) ∈ l → p ∈ b → inExactBucket target k p = false →
      p ∈ deleteCandidates target l := by
  intro l
  induction l with
  | nil => intro k b p h _ _; simp at h
  | cons e rest ih =>
    intro k b p h hp habs
    rw [deleteCandidates, List.mem_append]
    rcases List.mem_cons.mp h with he | he
    · left
      have he1 : e.1 = k := (congrArg Prod.fst he).symm
      have he2 : e.2 = b := (congrArg Prod.snd he).symm
      rw [List.mem_filter]
      refine ⟨he2 ▸ hp, ?_⟩
      rw [he1, habs]
      rfl
    · right; exact ih he hp habs

theorem deleteCandidates_mem {target : DirScan} :
    ∀ {l : List (FileInfo × List RelPath)} {p : RelPath},
      p ∈ deleteCandidates target l →
      ∃ k b, (k, b) ∈ l ∧ p ∈ b ∧ inExactBucket target k p = false := by
  intro l
  induction l with
  | nil => intro p h; simp [deleteCandidates] at h
  | cons e rest ih =>
    intro p h
    rw [deleteCandidates, List.mem_append] at h
    rcases h with h | h
    · rw [List.mem_filter] at h
      refine ⟨e.1, e.2, List.mem_cons_self _ _, h.1, ?_⟩
      have := h.2
      rwa [Bool.not_eq_eq_eq_not, Bool.not_true] at this
    · obtain ⟨k, b, hm, hp, hb⟩ := ih h
      exact ⟨k, b, List.mem_cons_of_mem _ hm, hp, hb⟩

theorem addCandidates_mem {base : DirScan} :
    ∀ {l : List (FileInfo × List RelPath)} {p : RelPath},
      p ∈ addCandidates base l →
      ∃ k b, (k, b) ∈ l ∧ p ∈ b ∧ (base.get p k).isNone = true := by
  intro l
  induction l with
  | nil => intro p h; simp [addCandidates] at h
  | cons e rest ih =>
    intro p h
    rw [addCandidates, List.mem_append] at h
    rcases h with h | h
    · rw [List.mem_filter] at h
      exact ⟨e.1, e.2, List.mem_cons_self _ _, h.1, h.2⟩
    · obtain ⟨k, b, hm, hp, hb⟩ := ih h
      exact ⟨k, b, List.mem_cons_of_mem _ hm, hp, hb⟩

theorem addCandidates_nil {base : DirScan} :
    ∀ {l : List (FileInfo × List RelPath)},
      (∀ e ∈ l, ∀ p ∈ e.2, (base.get p e.1).isNone = false) →
      addCandidates base l = [] := by
  intro l
  induction l with
  | nil => intro _; rfl
  | cons e rest ih =>
    intro h
    rw [addCandidates, ih (fun x hx => h x (List.mem_cons_of_mem _ hx)), List.append_nil]
    rw [List.filter_eq_nil_iff]
    intro p hp
    rw [h e (List.mem_cons_self _ _) p hp]
    simp

theorem deleteCandidates_nil {target : DirScan} :
    ∀ {l : List (FileInfo × List RelPath)},
      (∀ e ∈ l, ∀ p ∈ e.2, inExactBucket target e.1 p = true) →
      deleteCandidates target l = [] := by
  intro l
  induction l with
  | nil => intro _; rfl
  | cons e rest ih =>
    intro h
    rw [deleteCandidates, ih (fun x hx => h x (List.mem_cons_of_mem _ hx)), List.append_nil]
    rw [List.filter_eq_nil_iff]
    intro p hp
    rw [h e (List.mem_cons_self _ _) p hp]
    simp

/-! ### Concrete catalogs for witnesses and counterexamples -/

/-- A `(size, mtime)` key used in concrete examples. -/
def keyA : FileInfo := { len := 1, mtime := 1 }

/-- A second `(size, mtime)` key used in concrete examples. -/
def keyB : FileInfo := { len := 2, mtime := 2 }

/-- A catalog with a single file `[0]` under `keyA`. -/
def scanSingle : DirScan :=
  { entries_size_mtime := [(keyA, [[0]])], entries_size := [], entries_name := [] }

/-- A catalog whose exact index has an empty bucket for `keyA` while the
size index has a non-empty bucket for size 1 — impossible for `scan_dir`
output, but expressible as a `DirScan` value. -/
def scanEmptyBucket : DirScan :=
  { entries_size_mtime := [(keyA, [])], entries_size := [(1, [[0]])], entries_name := [] }

/-- Base catalog for the sort-order counterexample: file `[9]` under
`keyA` and file `[8]` under `keyB`. -/
def scanBaseSwap : DirScan :=
  { entries_size_mtime := [(keyA, [[9]]), (keyB, [[8]])], entries_size := [], entries_name := [] }

/-- Target catalog with file `[0]` under `keyA` and file `[1]` under
`keyB`. -/
def scanTargetSwap : DirScan :=
  { entries_size_mtime := [(keyA, [[0]]), (keyB, [[1]])], entries_size := [], entries_name := [] }

/-- Target catalog with the single file `[1]` under `keyA` (the file
`[0]` of `scanSingle`, moved). -/
def scanTargetMove : DirScan :=
  { entries_size_mtime := [(keyA, [[1]])], entries_size := [], entries_name := [] }

/-- Base catalog holding the same path `[9]` under both keys, so that
one base file serves as copy source for two target paths. -/
def scanBaseFan : DirScan :=
  { entries_size_mtime := [(keyA, [[9]]), (keyB, [[9]])], entries_size := [], entries_name := [] }

/-! ### The claims -/

/-- C1: diffing a snapshot catalog against itself yields an empty
change-set — no copies, no adds, no deletes — because every
`(key, path)` entry of the target finds its identical path in the
base's exact-key bucket. -/
theorem diff_self_empty (S : DirScan) (hK : wfExactKeys S) :
    diff S S = some (Except.ok []) ∧ diffAdds S S = [] ∧ diffDeletes S S = [] := by
  have hget : ∀ e ∈ S.entries_size_mtime, ∀ p ∈ e.2, S.get p e.1 = some e.2 := by
    intro e he p _
    unfold DirScan.get
    rw [findVal_of_mem_nodup _ _ _ hK he]
  refine ⟨?_, ?_, ?_⟩
  · have hb : diffBuckets S S.entries_size_mtime = some [] := by
      apply diffBuckets_all_unchanged
      intro e he
      exact diffPaths_all_unchanged (fun p hp => ⟨e.2, hget e he p hp, hp⟩)
    simp [diff, hb, List.insertionSort]
  · rw [diffAdds, addCandidates_nil]
    · rfl
    · intro e he p hp
      rw [hget e he p hp]
      rfl
  · rw [diffDeletes, deleteCandidates_nil]
    · rfl
    · intro e he p hp
      unfold inExactBucket
      rw [findVal_of_mem_nodup _ _ _ hK he]
      simp [hp]

/-- C1 witness: the catalog with one file, diffed against itself. -/
theorem diff_self_empty_witness :
    diff scanSingle scanSingle = some (Except.ok []) ∧
      diffAdds scanSingle scanSingle = [] ∧ diffDeletes scanSingle scanSingle = [] :=
  diff_self_empty scanSingle (by decide)

/-- C2 counterexample: on a catalog whose exact-key bucket exists but is
empty, `DirScan::get` returns that empty bucket instead of falling
through to the non-empty size-only bucket, so `get` differs from the
spec's "first non-empty bucket" lookup at this input. -/
theorem get_ne_findSpec_at_empty_bucket :
    DirScan.get scanEmptyBucket [5] keyA ≠ findSpec scanEmptyBucket [5] keyA := by
  decide

/-- C2 (amended): the lookup consults the indices in the order exact
key, size only, basename, and returns the first bucket *present*
(existence, not non-emptiness, is tested).  For a catalog whose buckets
are all non-empty — which is every catalog `scan_dir` builds — this
coincides with the spec's "first non-empty bucket found, or nothing". -/
theorem get_eq_findSpec (s : DirScan) (hne : bucketsNonempty s)
    (path : RelPath) (info : FileInfo) :
    s.get path info = findSpec s path info := by
  cases h1 : findVal s.entries_size_mtime info with
  | some b =>
    cases b with
    | nil => exact absurd rfl (hne.1 _ (findVal_mem _ _ _ h1))
    | cons q qs => simp [DirScan.get, findSpec, h1, keepNonempty]
  | none =>
    cases h2 : findVal s.entries_size info.len with
    | some b =>
      cases b with
      | nil => exact absurd rfl (hne.2.1 _ (findVal_mem _ _ _ h2))
      | cons q qs => simp [DirScan.get, findSpec, h1, h2, keepNonempty]
    | none =>
      cases h3 : fileName path with
      | none => simp [DirScan.get, findSpec, h1, h2, h3, keepNonempty]
      | some f =>
        cases h4 : findVal s.entries_name f with
        | none => simp [DirScan.get, findSpec, h1, h2, h3, h4, keepNonempty]
        | some b =>
          cases b with
          | nil => exact absurd rfl (hne.2.2 _ (findVal_mem _ _ _ h4))
          | cons q qs => simp [DirScan.get, findSpec, h1, h2, h3, h4, keepNonempty]

/-- C2 witness: on a concrete catalog with non-empty buckets the lookup
agrees with the spec's fallback description. -/
theorem get_eq_findSpec_witness :
    bucketsNonempty scanSingle ∧
      DirScan.get scanSingle [0] keyA = findSpec scanSingle [0] keyA :=
  ⟨by decide, get_eq_findSpec scanSingle (by decide) [0] keyA⟩

/-- C3 counterexample: `copies.sort()` sorts `CopyFile` values by the
derived order — `src` first, `dst` second — so the returned list need
not be sorted by destination: here the output is
`[{src 8, dst 1}, {src 9, dst 0}]`, whose destinations descend. -/
theorem diff_not_sorted_by_dst :
    diff scanBaseSwap scanTargetSwap =
        some (Except.ok [{ src := [8], dst := [1] }, { src := [9], dst := [0] }]) ∧
      sortedByDst [{ src := [8], dst := [1] }, { src := [9], dst := [0] }] = false := by
  constructor
  · rfl
  · rfl

/-- C3 (amended): the copy list returned by `diff` is sorted in the
derived `CopyFile` order — lexicographically by the pair
`(src, dst)`, with `dst` only a tiebreaker — which makes the output
deterministic regardless of hash-map iteration order, but it is not in
general sorted by destination alone. -/
theorem diff_sorted (base target : DirScan) (cs : List CopyFile)
    (hd : diff base target = some (Except.ok cs)) : List.Sorted copyLE cs := by
  unfold diff at hd
  cases hb : diffBuckets base target.entries_size_mtime with
  | none => rw [hb] at hd; cases hd
  | some cs0 =>
    rw [hb] at hd
    simp only [Option.some.injEq, Except.ok.injEq] at hd
    rw [← hd]
    exact List.sorted_insertionSort copyLE cs0

/-- C3 witness: the sort-order theorem applied to the concrete
catalogs of the counterexample. -/
theorem diff_sorted_witness :
    List.Sorted copyLE [{ src := [8], dst := [1] }, { src := [9], dst := [0] }] :=
  diff_sorted scanBaseSwap scanTargetSwap
    [{ src := [8], dst := [1] }, { src := [9], dst := [0] }] rfl

/-- C4: a base `(key, path)` entry whose identical path is absent from
the target's exact-key bucket for `key` is recorded as a delete; and
(concrete second half) this happens even when the very same path is the
source of an emitted copy. -/
theorem base_path_deleted (base target : DirScan) (key : FileInfo)
    (bucket : List RelPath) (p : RelPath)
    (hmem : (key, bucket) ∈ base.entries_size_mtime) (hp : p ∈ bucket)
    (habs : inExactBucket target key p = false) :
    p ∈ diffDeletes base target ∧
      (([0] : RelPath) ∈ diffDeletes scanSingle scanTargetMove ∧
        ∃ cs, diff scanSingle scanTargetMove = some (Except.ok cs) ∧
          ∃ c ∈ cs, c.src = [0]) := by
  refine ⟨?_, by decide, ?_⟩
  · rw [diffDeletes, List.mem_insertionSort]
    exact deleteCandidates_mem_of hmem hp habs
  · exact ⟨[{ src := [0], dst := [1] }], rfl, { src := [0], dst := [1] }, by decide, rfl⟩

/-- C4 witness: the delete-pass theorem applied to concrete catalogs
where file `[0]` moved to `[1]`. -/
theorem base_path_deleted_witness :
    ([0] : RelPath) ∈ diffDeletes scanSingle scanTargetMove :=
  (base_path_deleted scanSingle scanTargetMove keyA [[0]] [0]
    (by decide) (by decide) (by decide)).1

theorem diff_inv {base target : DirScan} {cs : List CopyFile}
    (hd : diff base target = some (Except.ok cs)) :
    ∃ cs0, diffBuckets base target.entries_size_mtime = some cs0 ∧
      cs = List.insertionSort copyLE cs0 := by
  unfold diff at hd
  cases hb : diffBuckets base target.entries_size_mtime with
  | none => rw [hb] at hd; cases hd
  | some cs0 =>
    rw [hb] at hd
    simp only [Option.some.injEq, Except.ok.injEq] at hd
    exact ⟨cs0, rfl, hd.symm⟩

/-- C5: a file present with the identical relative path and identical
`(size, mtime)` key in both catalogs appears nowhere in the change-set:
not as a copy destination, not as an add, not as a delete.  The
hypotheses record the hash-map and `scan_dir` invariants of the two
catalogs. -/
theorem unchanged_file_untouched (base target : DirScan) (key : FileInfo)
    (p : RelPath) (bb tb : List RelPath) (cs : List CopyFile)
    (hKb : wfExactKeys base) (hKt : wfExactKeys target)
    (hPb : exactPathsNodup base) (hPt : exactPathsNodup target)
    (hb : (key, bb) ∈ base.entries_size_mtime) (hpb : p ∈ bb)
    (ht : (key, tb) ∈ target.entries_size_mtime) (hpt : p ∈ tb)
    (hd : diff base target = some (Except.ok cs)) :
    p ∉ cs.map CopyFile.dst ∧ p ∉ diffAdds base target ∧ p ∉ diffDeletes base target := by
  have hgetbase : base.get p key = some bb := by
    unfold DirScan.get
    rw [findVal_of_mem_nodup _ _ _ hKb hb]
  obtain ⟨cs0, hbk, hsort⟩ := diff_inv hd
  refine ⟨?_, ?_, ?_⟩
  · intro hmem
    obtain ⟨c, hc, hcd⟩ := List.mem_map.mp hmem
    rw [hsort, List.mem_insertionSort] at hc
    obtain ⟨info, ps, cs1, hmem1, hdp, hc1⟩ := diffBuckets_mem hbk hc
    obtain ⟨hdin, tl, hget, hnotin⟩ := diffPaths_mem hdp hc1
    rw [hcd] at hdin hget
    obtain ⟨hkeq, hbeq⟩ := exactPaths_unique hPt ht hpt hmem1 hdin
    rw [← hkeq] at hget
    rw [hgetbase] at hget
    have hbbeq : bb = c.src :: tl := Option.some.inj hget
    rw [hcd] at hnotin
    exact hnotin (hbbeq ▸ hpb)
  · intro hmem
    rw [diffAdds, List.mem_insertionSort] at hmem
    obtain ⟨k, b, hm, hpb2, hnone⟩ := addCandidates_mem hmem
    obtain ⟨hkeq, _⟩ := exactPaths_unique hPt ht hpt hm hpb2
    rw [← hkeq, hgetbase] at hnone
    cases hnone
  · intro hmem
    rw [diffDeletes, List.mem_insertionSort] at hmem
    obtain ⟨k, b, hm, hpb2, hfalse⟩ := deleteCandidates_mem hmem
    obtain ⟨hkeq, _⟩ := exactPaths_unique hPb hb hpb hm hpb2
    rw [← hkeq] at hfalse
    unfold inExactBucket at hfalse
    rw [findVal_of_mem_nodup _ _ _ hKt ht] at hfalse
    simp [hpt] at hfalse

/-- C5 witness: the unchanged file `[0]` of `scanSingle`, diffed
against itself, is absent from copies, adds and deletes. -/
theorem unchanged_file_untouched_witness :
    ([0] : RelPath) ∉ (([] : List CopyFile).map CopyFile.dst) ∧
      ([0] : RelPath) ∉ diffAdds scanSingle scanSingle ∧
      ([0] : RelPath) ∉ diffDeletes scanSingle scanSingle :=
  unchanged_file_untouched scanSingle scanSingle keyA [0] [[0]] [[0]] []
    (by decide) (by decide) (by decide) (by decide)
    (by decide) (by decide) (by decide) (by decide) rfl

/-- C6: each target path occurs at most once as a copy destination
(under the `scan_dir` invariant that the target's exact index holds
each path once), while — concrete second half — one base path may be
the source of several distinct copies. -/
theorem copy_dsts_nodup (base target : DirScan) (cs : List CopyFile)
    (hPt : exactPathsNodup target) (hd : diff base target = some (Except.ok cs)) :
    (cs.map CopyFile.dst).Nodup ∧
      ∃ cs2 c1 c2, diff scanBaseFan scanTargetSwap = some (Except.ok cs2) ∧
        c1 ∈ cs2 ∧ c2 ∈ cs2 ∧ c1 ≠ c2 ∧ c1.src = c2.src := by
  constructor
  · obtain ⟨cs0, hbk, hsort⟩ := diff_inv hd
    have hperm : cs.Perm cs0 := hsort ▸ List.perm_insertionSort copyLE cs0
    rw [(hperm.map CopyFile.dst).nodup_iff]
    exact hPt.sublist (diffBuckets_dst_sublist hbk)
  · refine ⟨[{ src := [9], dst := [0] }, { src := [9], dst := [1] }],
      { src := [9], dst := [0] }, { src := [9], dst := [1] }, rfl, ?_, ?_, ?_, rfl⟩
    · decide
    · decide
    · decide

/-- C6 witness: the destination-uniqueness theorem applied to the
concrete swap catalogs. -/
theorem copy_dsts_nodup_witness :
    (([{ src := [8], dst := [1] }, { src := [9], dst := [0] }] : List CopyFile).map
        CopyFile.dst).Nodup ∧
      ∃ cs2 c1 c2, diff scanBaseFan scanTargetSwap = some (Except.ok cs2) ∧
        c1 ∈ cs2 ∧ c2 ∈ cs2 ∧ c1 ≠ c2 ∧ c1.src = c2.src :=
  copy_dsts_nodup scanBaseSwap scanTargetSwap
    [{ src := [8], dst := [1] }, { src := [9], dst := [0] }] (by decide) rfl

/-- C7: the `clone_file` wrapper maps every error return of the
`FICLONE` ioctl to an `Err` and every non-error return to `Ok`; over
the possible return values of the ioctl (`-1` on failure, non-negative
otherwise), a negative code never yields `Ok`. -/
theorem clone_file_error_mapping (r : Int) (hr : r = -1 ∨ 0 ≤ r) :
    (r < 0 → cloneFileResult r = Except.error ()) ∧
      (0 ≤ r → cloneFileResult r = Except.ok ()) := by
  constructor
  · intro hneg
    rcases hr with h | h
    · rw [h]; rfl
    · exact absurd hneg (by omega)
  · intro hpos
    unfold cloneFileResult
    rw [if_neg (by omega)]

/-- C7 witness: the error mapping evaluated at the ioctl failure code
`-1`. -/
theorem clone_file_error_mapping_witness : cloneFileResult (-1) = Except.error () :=
  (clone_file_error_mapping (-1) (Or.inl rfl)).1 (by decide)

/-- C8: in apply mode, when the clone ioctl fails after the destination
file was created, the error is surfaced, the created destination file
stays in place (it appears in the created-files list), and no later
copy entry is processed — the result does not depend on `rest`. -/
theorem clone_fail_aborts (pre : List CopyFile) (c : CopyFile) (rest : List CopyFile)
    (o : CopyFile → StepOutcome) (hpre : ∀ x ∈ pre, o x = StepOutcome.ok)
    (hc : o c = StepOutcome.cloneFail) :
    applyCopies o (pre ++ c :: rest) = (pre.map CopyFile.dst ++ [c.dst], Except.error ()) := by
  induction pre with
  | nil =>
    simp only [List.nil_append, List.map_nil]
    simp [applyCopies, hc, clonePathsModel]
  | cons x xs ih =>
    have hx := hpre x (List.mem_cons_self _ _)
    have ihx := ih (fun y hy => hpre y (List.mem_cons_of_mem _ hy))
    simp [applyCopies, hx, clonePathsModel, ihx]

/-- An outcome oracle for the C8 witness: the clone of destination `[1]`
fails, all other steps succeed. -/
def oracleCloneFail : CopyFile → StepOutcome :=
  fun c => if c.dst = [1] then StepOutcome.cloneFail else StepOutcome.ok

/-- C8 witness: with three queued copies, the clone failure on the
second leaves destinations `[0]` and `[1]` created, surfaces the error,
and never processes the third. -/
theorem clone_fail_aborts_witness :
    applyCopies oracleCloneFail
        [{ src := [5], dst := [0] }, { src := [6], dst := [1] }, { src := [7], dst := [2] }] =
      ([[0], [1]], Except.error ()) :=
  clone_fail_aborts [{ src := [5], dst := [0] }] { src := [6], dst := [1] }
    [{ src := [7], dst := [2] }] oracleCloneFail (by decide) (by decide)

/-- C9: every copy emitted by `diff` has a source different from its
destination: a copy is only emitted when the candidate bucket does not
contain the destination path, and the source is drawn from that
bucket. -/
theorem copy_src_ne_dst (base target : DirScan) (cs : List CopyFile) (c : CopyFile)
    (hd : diff base target = some (Except.ok cs)) (hc : c ∈ cs) : c.src ≠ c.dst := by
  obtain ⟨cs0, hbk, hsort⟩ := diff_inv hd
  rw [hsort, List.mem_insertionSort] at hc
  obtain ⟨info, ps, cs1, _, hdp, hc1⟩ := diffBuckets_mem hbk hc
  obtain ⟨_, tl, _, hnotin⟩ := diffPaths_mem hdp hc1
  intro he
  exact hnotin (by rw [← he]; exact List.mem_cons_self _ _)

/-- C9 witness: the emitted copy of the concrete move has distinct
source and destination. -/
theorem copy_src_ne_dst_witness :
    (CopyFile.mk [0] [1]).src ≠ (CopyFile.mk [0] [1]).dst :=
  copy_src_ne_dst scanSingle scanTargetMove [{ src := [0], dst := [1] }]
    { src := [0], dst := [1] } rfl (by decide)

/-- C10: `diff` is infallible.  Its body constructs no `Err` value for
any pair of catalogs, and on any base catalog whose buckets are
non-empty (every `scan_dir` output) it runs to completion — no panic —
and returns `Ok` with the computed copy list.  The model is pure:
`diff` performs no I/O. -/
theorem diff_infallible (base target : DirScan) (hne : bucketsNonempty base) :
    (∃ cs, diff base target = some (Except.ok cs)) ∧
      ∀ e : Unit, diff base target ≠ some (Except.error e) := by
  obtain ⟨cs0, hb⟩ := diffBuckets_total hne target.entries_size_mtime
  constructor
  · exact ⟨List.insertionSort copyLE cs0, by simp [diff, hb]⟩
  · intro e h
    unfold diff at h
    rw [hb] at h
    simp at h

/-- C10 witness: `diff` on the concrete one-file catalog returns `Ok`
and is not an error. -/
theorem diff_infallible_witness :
    (∃ cs, diff scanSingle scanSingle = some (Except.ok cs)) ∧
      ∀ e : Unit, diff scanSingle scanSingle ≠ some (Except.error e) :=
  diff_infallible scanSingle scanSingle (by decide)
